import Mathlib

/-!
Verification of the key-generation module (`src/keys.rs`) of the RSS
repository: Pointcheval-Sanders style key generation for a baseline (2016)
scheme, an extended (2018) scheme, and a structured redactable scheme.

Modelling choices (shallow embedding of the Rust code):

* `FieldElement` (amcl_wrapper scalar field, modulus the order of the
  pairing groups) is modelled as `Fin CurveOrder`, with addition,
  multiplication and exponentiation reduced modulo `CurveOrder`;
  `FieldElement::pow(&y, &e)` exponentiates by the integer value of `e`.
* Group elements of either pairing group are only ever produced by
  `from_msg_hash` and by scalar multiplication, so a group element is
  modelled as the hashed message (its base) together with the accumulated
  scalar: `from_msg_hash m = ⟨m, 1⟩`,
  `scalar_mul ⟨b, e⟩ s = ⟨b, e * s⟩` (collision-free hash-to-group
  abstraction).  Both `scalar_mul_const_time` and
  `scalar_mul_variable_time` denote this scalar multiplication.
* `FieldElement::random()` is modelled by an injected random tape
  `tape : ℕ → F` together with an explicit next-index counter threaded
  through the functions; each function returns the final index, so the
  number of random draws it consumed is observable.
* In the Rust source, `FieldElement::add_assign_(&mut i_exponent, &one)`
  mutates `i_exponent` in place and returns unit, so the shadowed
  rebinding `let i_exponent = ...` inside the loop body binds `()` and the
  counter genuinely advances across iterations.  The loops are therefore
  embedded with the counter threaded as state and incremented each
  iteration.  Likewise the second loop of `rsskeygen` continues with the
  counter value left over by the first loop (the source never resets it).
* `for _ in a..b` runs `b - a` iterations (truncated subtraction), matching
  Rust's half-open, saturating-empty range.
-/

namespace RSS

/-- Order of the scalar field of the BLS12-381 pairing groups used by the
external `amcl_wrapper` library (its `CurveOrder` for the default curve). -/
def CurveOrder : ℕ :=
  52435875175126190479447740508185965837690552500527637822603658699938581184513

theorem curveOrder_pos : 0 < CurveOrder := by decide

/-- `FieldElement`: an integer modulo the group order. -/
abbrev F : Type := Fin CurveOrder

/-- `FieldElement::one()`. -/
def fone : F := ⟨1, by decide⟩

/-- `FieldElement` addition (`add_assign_` reduced to its result):
sum modulo the curve order. -/
def fadd (a b : F) : F := ⟨(a.val + b.val) % CurveOrder, Nat.mod_lt _ curveOrder_pos⟩

/-- `FieldElement` multiplication: product modulo the curve order. -/
def fmul (a b : F) : F := ⟨(a.val * b.val) % CurveOrder, Nat.mod_lt _ curveOrder_pos⟩

/-- `FieldElement::pow(&a, &e)`: `a` raised to the integer value of `e`,
modulo the curve order. -/
def fpow (a e : F) : F := ⟨(a.val ^ e.val) % CurveOrder, Nat.mod_lt _ curveOrder_pos⟩

/-- `a` raised to a natural-number exponent, modulo the curve order
(the mathematical power `y^k` the specification speaks about). -/
def fpowNat (a : F) (k : ℕ) : F := ⟨(a.val ^ k) % CurveOrder, Nat.mod_lt _ curveOrder_pos⟩

/-- A pairing-group element: the message its base was hashed from together
with the accumulated scalar multiplier (free hash-to-group abstraction;
used for both `SignatureGroup` and `VerkeyGroup`). -/
structure GroupElem where
  base : List ℕ
  exp : F
deriving DecidableEq

/-- `from_msg_hash`: hash a byte sequence to a group element. -/
def fromMsgHash (m : List ℕ) : GroupElem := ⟨m, fone⟩

/-- `scalar_mul_const_time` / `scalar_mul_variable_time` / `&g * &x`. -/
def scalarMul (a : GroupElem) (s : F) : GroupElem := ⟨a.base, fmul a.exp s⟩

/-- `Sigkey`: baseline secret key. -/
structure Sigkey where
  x : F
  y : List F
deriving DecidableEq

/-- `Verkey`: baseline verification key. -/
structure Verkey where
  X_tilde : GroupElem
  Y_tilde : List GroupElem
deriving DecidableEq

/-- `SKrss`: structured-scheme secret key. -/
structure SKrss where
  x : F
  y : F
deriving DecidableEq

/-- `PKrss`: structured-scheme public key. -/
structure PKrss where
  g : GroupElem
  g_tilde : GroupElem
  Y_j_1_to_n : List GroupElem
  Y_k_nplus2_to_2n : List GroupElem
  X_tilde : GroupElem
  Y_tilde_i : List GroupElem
deriving DecidableEq

/-- `Params`: the shared generators. -/
structure Params where
  g : GroupElem
  g_tilde : GroupElem
deriving DecidableEq

/-- The byte sequence of the literal `" : g"`. -/
def gSuffix : List ℕ := [32, 58, 32, 103]

/-- The byte sequence of the literal `" : g_tilde"`. -/
def gTildeSuffix : List ℕ := [32, 58, 32, 103, 95, 116, 105, 108, 100, 101]

/-- `Params::new`: derive the two generators from the label by
hash-to-group with a group-specific suffix. -/
def Params.new (label : List ℕ) : Params :=
  { g := fromMsgHash (label ++ gSuffix)
    g_tilde := fromMsgHash (label ++ gTildeSuffix) }

/-- The loop body of `keygen`, iterated: remaining iteration count and next
tape index; returns the `y` scalars, the `Y_tilde` elements (in push order)
and the final tape index. -/
def keygenLoop (p : Params) (tape : ℕ → F) : ℕ → ℕ → List F × List GroupElem × ℕ
  | 0, idx => ([], [], idx)
  | k + 1, idx =>
      let y_i := tape idx
      let rest := keygenLoop p tape k (idx + 1)
      (y_i :: rest.1, scalarMul p.g_tilde y_i :: rest.2.1, rest.2.2)

/-- `keygen` (2016 scheme), with the random source made explicit as a tape;
also returns the next unused tape index. -/
def keygen (count_messages : ℕ) (p : Params) (tape : ℕ → F) :
    (Sigkey × Verkey) × ℕ :=
  let x := tape 0
  let X_tilde := scalarMul p.g_tilde x
  let L := keygenLoop p tape count_messages 1
  ((⟨x, L.1⟩, ⟨X_tilde, L.2.1⟩), L.2.2)

/-- First loop of `rsskeygen` (building `Y_tilde_i`): the counter `i_exponent`
is mutated in place by `add_assign_`, so it is threaded as state; returns the
pushed elements and the final counter value. -/
def rssLoop1 (p : Params) (y : F) : ℕ → F → List GroupElem × F
  | 0, iExp => ([], iExp)
  | k + 1, iExp =>
      let y_i := fpow y iExp
      let g_tilde_y_i := scalarMul p.g_tilde y_i
      let rest := rssLoop1 p y k (fadd iExp fone)
      (g_tilde_y_i :: rest.1, rest.2)

/-- Second loop of `rsskeygen` (building `Y_j_1_to_n`): same shape as the
first loop but in the other group; the counter it starts from is whatever
the first loop left behind. -/
def rssLoop2 (p : Params) (y : F) : ℕ → F → List GroupElem × F
  | 0, iExp => ([], iExp)
  | k + 1, iExp =>
      let y_i := fpow y iExp
      let g_y_i := scalarMul p.g y_i
      let rest := rssLoop2 p y k (fadd iExp fone)
      (g_y_i :: rest.1, rest.2)

/-- Third loop of `rsskeygen` (building `Y_k_nplus2_to_2n`): a fresh counter
`k_exponent`, plus one random draw per iteration whose value is shadowed
before use (`let y_i = FieldElement::random();`) and therefore discarded;
returns the pushed elements, the final counter and the final tape index. -/
def rssLoop3 (p : Params) (y : F) (tape : ℕ → F) :
    ℕ → F → ℕ → List GroupElem × F × ℕ
  | 0, kExp, idx => ([], kExp, idx)
  | m + 1, kExp, idx =>
      let y_i := fpow y kExp
      let g_y_i := scalarMul p.g y_i
      let _discarded := tape idx
      let rest := rssLoop3 p y tape m (fadd kExp fone) (idx + 1)
      (g_y_i :: rest.1, rest.2)

/-- `rsskeygen` (structured scheme), with the random source made explicit
as a tape; also returns the next unused tape index.  The second loop keeps
the exponent counter left by the first loop; the third loop runs
`2n - (n+2)` times (Rust half-open range, empty when the start exceeds the
end) with a counter restarted at one. -/
def rsskeygen (count_messages : ℕ) (p : Params) (tape : ℕ → F) :
    (SKrss × PKrss) × ℕ :=
  let x := tape 0
  let y := tape 1
  let X_tilde := scalarMul p.g_tilde x
  let g := scalarMul p.g fone
  let g_tilde := scalarMul p.g_tilde fone
  let L1 := rssLoop1 p y count_messages fone
  let L2 := rssLoop2 p y count_messages L1.2
  let L3 := rssLoop3 p y tape (2 * count_messages - (count_messages + 2)) fone 2
  ((⟨x, y⟩,
    ⟨g, g_tilde, L2.1, L3.1, X_tilde, L1.1⟩), L3.2.2)

/-- `keygen_2018`: the 2018 scheme adds one slot for the auxiliary value. -/
def keygen_2018 (count_messages : ℕ) (p : Params) (tape : ℕ → F) :
    (Sigkey × Verkey) × ℕ :=
  keygen (count_messages + 1) p tape

/-- Concrete label `"test"` used by the repository's tests. -/
def testLabel : List ℕ := [116, 101, 115, 116]

/-- Concrete parameters for witnesses. -/
def pW : Params := Params.new testLabel

/-- Concrete random tape for witnesses: every draw returns 2. -/
def tapeW : ℕ → F := fun _ => ⟨2, by decide⟩

/-- A second tape agreeing with `tapeW` on the first two draws only. -/
def tapeW2 : ℕ → F := fun k => if k < 2 then tapeW k else fone

theorem fadd_one_val (e : F) (h : e.val + 1 < CurveOrder) :
    (fadd e fone).val = e.val + 1 := by
  simp [fadd, fone, Nat.mod_eq_of_lt h]

theorem fpow_eq_fpowNat (a e : F) : fpow a e = fpowNat a e.val := rfl

theorem rssLoop1_length (p : Params) (y : F) :
    ∀ (k : ℕ) (e : F), ((rssLoop1 p y k e).1).length = k := by
  intro k
  induction k with
  | zero => intro e; rfl
  | succ k ih => intro e; simp [rssLoop1, ih]

theorem rssLoop1_get (p : Params) (y : F) :
    ∀ (k : ℕ) (e : F) (t : ℕ), t < k → e.val + t < CurveOrder →
      ((rssLoop1 p y k e).1).get? t
        = some (scalarMul p.g_tilde (fpowNat y (e.val + t))) := by
  intro k
  induction k with
  | zero => intro e t ht _; exact absurd ht (Nat.not_lt_zero t)
  | succ k ih =>
      intro e t ht hq
      cases t with
      | zero =>
          simp [rssLoop1, fpow_eq_fpowNat]
      | succ t =>
          have h1 : e.val + 1 < CurveOrder := by omega
          have hval : (fadd e fone).val = e.val + 1 := fadd_one_val e h1
          have hrec := ih (fadd e fone) t (Nat.lt_of_succ_lt_succ ht) (by omega)
          rw [hval] at hrec
          have harg : e.val + 1 + t = e.val + (t + 1) := by omega
          rw [harg] at hrec
          simpa [rssLoop1] using hrec

theorem rssLoop1_snd (p : Params) (y : F) :
    ∀ (k : ℕ) (e : F), e.val + k < CurveOrder →
      ((rssLoop1 p y k e).2).val = e.val + k := by
  intro k
  induction k with
  | zero => intro e _; simp [rssLoop1]
  | succ k ih =>
      intro e hq
      have h1 : e.val + 1 < CurveOrder := by omega
      have hval : (fadd e fone).val = e.val + 1 := fadd_one_val e h1
      have hrec := ih (fadd e fone) (by omega)
      rw [hval] at hrec
      have harg : e.val + 1 + k = e.val + (k + 1) := by omega
      rw [harg] at hrec
      simpa [rssLoop1] using hrec

theorem rssLoop2_length (p : Params) (y : F) :
    ∀ (k : ℕ) (e : F), ((rssLoop2 p y k e).1).length = k := by
  intro k
  induction k with
  | zero => intro e; rfl
  | succ k ih => intro e; simp [rssLoop2, ih]

theorem rssLoop2_get (p : Params) (y : F) :
    ∀ (k : ℕ) (e : F) (t : ℕ), t < k → e.val + t < CurveOrder →
      ((rssLoop2 p y k e).1).get? t
        = some (scalarMul p.g (fpowNat y (e.val + t))) := by
  intro k
  induction k with
  | zero => intro e t ht _; exact absurd ht (Nat.not_lt_zero t)
  | succ k ih =>
      intro e t ht hq
      cases t with
      | zero =>
          simp [rssLoop2, fpow_eq_fpowNat]
      | succ t =>
          have h1 : e.val + 1 < CurveOrder := by omega
          have hval : (fadd e fone).val = e.val + 1 := fadd_one_val e h1
          have hrec := ih (fadd e fone) t (Nat.lt_of_succ_lt_succ ht) (by omega)
          rw [hval] at hrec
          have harg : e.val + 1 + t = e.val + (t + 1) := by omega
          rw [harg] at hrec
          simpa [rssLoop2] using hrec

theorem rssLoop3_length (p : Params) (y : F) (tape : ℕ → F) :
    ∀ (m : ℕ) (e : F) (i : ℕ), ((rssLoop3 p y tape m e i).1).length = m := by
  intro m
  induction m with
  | zero => intro e i; rfl
  | succ m ih => intro e i; simp [rssLoop3, ih]

theorem rssLoop3_fst_eq (p : Params) (y : F) (ta tb : ℕ → F) :
    ∀ (m : ℕ) (e : F) (ia ib : ℕ),
      (rssLoop3 p y ta m e ia).1 = (rssLoop3 p y tb m e ib).1 := by
  intro m
  induction m with
  | zero => intro e ia ib; rfl
  | succ m ih =>
      intro e ia ib
      simp only [rssLoop3]
      rw [ih (fadd e fone) (ia + 1) (ib + 1)]

theorem rssLoop3_idx (p : Params) (y : F) (tape : ℕ → F) :
    ∀ (m : ℕ) (e : F) (i : ℕ), (rssLoop3 p y tape m e i).2.2 = i + m := by
  intro m
  induction m with
  | zero => intro e i; rfl
  | succ m ih =>
      intro e i
      have hrec := ih (fadd e fone) (i + 1)
      have harg : i + 1 + m = i + (m + 1) := by omega
      rw [harg] at hrec
      simpa [rssLoop3] using hrec

theorem keygenLoop_y_length (p : Params) (tape : ℕ → F) :
    ∀ (k i : ℕ), ((keygenLoop p tape k i).1).length = k := by
  intro k
  induction k with
  | zero => intro i; rfl
  | succ k ih => intro i; simp [keygenLoop, ih]

theorem keygenLoop_map (p : Params) (tape : ℕ → F) :
    ∀ (k i : ℕ), (keygenLoop p tape k i).2.1
      = List.map (scalarMul p.g_tilde) (keygenLoop p tape k i).1 := by
  intro k
  induction k with
  | zero => intro i; rfl
  | succ k ih => intro i; simp [keygenLoop, ih]

theorem rsskeygen_sk_y (n : ℕ) (p : Params) (tape : ℕ → F) :
    (rsskeygen n p tape).1.1.y = tape 1 := rfl

theorem rsskeygen_Y_tilde_i_eq (n : ℕ) (p : Params) (tape : ℕ → F) :
    (rsskeygen n p tape).1.2.Y_tilde_i = (rssLoop1 p (tape 1) n fone).1 := rfl

theorem rsskeygen_Y_j_eq (n : ℕ) (p : Params) (tape : ℕ → F) :
    (rsskeygen n p tape).1.2.Y_j_1_to_n
      = (rssLoop2 p (tape 1) n (rssLoop1 p (tape 1) n fone).2).1 := rfl

theorem rsskeygen_Y_k_eq (n : ℕ) (p : Params) (tape : ℕ → F) :
    (rsskeygen n p tape).1.2.Y_k_nplus2_to_2n
      = (rssLoop3 p (tape 1) tape (2 * n - (n + 2)) fone 2).1 := rfl

theorem rsskeygen_idx_eq (n : ℕ) (p : Params) (tape : ℕ → F) :
    (rsskeygen n p tape).2
      = (rssLoop3 p (tape 1) tape (2 * n - (n + 2)) fone 2).2.2 := rfl

theorem rsskeygen_fst_eq (n : ℕ) (p : Params) (tape : ℕ → F) :
    (rsskeygen n p tape).1
      = (⟨tape 0, tape 1⟩,
         ⟨scalarMul p.g fone, scalarMul p.g_tilde fone,
          (rssLoop2 p (tape 1) n (rssLoop1 p (tape 1) n fone).2).1,
          (rssLoop3 p (tape 1) tape (2 * n - (n + 2)) fone 2).1,
          scalarMul p.g_tilde (tape 0),
          (rssLoop1 p (tape 1) n fone).1⟩) := rfl

/-- Claim C1: for every n ≥ 1 and every `Params`, the G2 family `Y_tilde_i`
returned by `rsskeygen` satisfies `Y_tilde_i[t] = g_tilde · y^(t+1)` for
`t = 0..n-1` (exponents 1..n of the single secret `y`): the exponent counter
advances across loop iterations instead of staying at the first power. -/
theorem rss_Y_tilde_i_powers (n : ℕ) (p : Params) (tape : ℕ → F) (t : ℕ)
    (ht : t < n) (hq : t + 1 < CurveOrder) :
    ((rsskeygen n p tape).1.2.Y_tilde_i).get? t
      = some (scalarMul p.g_tilde (fpowNat ((rsskeygen n p tape).1.1.y) (t + 1))) := by
  rw [rsskeygen_Y_tilde_i_eq, rsskeygen_sk_y]
  have hv : (fone : F).val = 1 := rfl
  have h := rssLoop1_get p (tape 1) n fone t ht (by rw [hv]; omega)
  rw [hv] at h
  have harg : 1 + t = t + 1 := Nat.add_comm 1 t
  rw [harg] at h
  exact h

/-- Witness for claim C1 at n = 2, t = 1 with the test parameters and the
all-twos tape. -/
theorem rss_Y_tilde_i_powers_witness :
    ((rsskeygen 2 pW tapeW).1.2.Y_tilde_i).get? 1
      = some (scalarMul pW.g_tilde (fpowNat ((rsskeygen 2 pW tapeW).1.1.y) (1 + 1))) :=
  rss_Y_tilde_i_powers 2 pW tapeW 1 (by decide) (by decide)

/-- Claim C2 at the failing input n = 1 (test parameters, all-twos tape, so
y = 2): the code publishes `Y_j_1_to_n[0] = g · y^2` because the exponent
counter continues from the value n+1 left by the first loop, and this is not
the `g · y^1` the claim states. -/
theorem rss_Y_j_first_element_bug :
    ((rsskeygen 1 pW tapeW).1.2.Y_j_1_to_n).get? 0
        = some (scalarMul pW.g (fpowNat ((rsskeygen 1 pW tapeW).1.1.y) 2))
      ∧ ((rsskeygen 1 pW tapeW).1.2.Y_j_1_to_n).get? 0
        ≠ some (scalarMul pW.g (fpowNat ((rsskeygen 1 pW tapeW).1.1.y) 1)) := by
  decide

/-- Claim C3 at the failing input n = 3 (test parameters, all-twos tape, so
y = 2): the high family has a single element (the loop over the half-open
range n+2..2n runs 2n-(n+2) = n-2 times) and that element is `g · y^1`
(the counter `k_exponent` restarts at one), not the `g · y^5` the claim's
exponent range n+2..2n would give at index 0. -/
theorem rss_high_family_bug :
    ((rsskeygen 3 pW tapeW).1.2.Y_k_nplus2_to_2n).length = 1
      ∧ ((rsskeygen 3 pW tapeW).1.2.Y_k_nplus2_to_2n).get? 0
        = some (scalarMul pW.g (fpowNat ((rsskeygen 3 pW tapeW).1.1.y) 1))
      ∧ ((rsskeygen 3 pW tapeW).1.2.Y_k_nplus2_to_2n).get? 0
        ≠ some (scalarMul pW.g (fpowNat ((rsskeygen 3 pW tapeW).1.1.y) 5)) := by
  decide

/-- Claim C4 at the failing input n = 5 (test parameters, all-twos tape):
the two low families have length 5 as claimed, but the high family has
length 3 = n-2, not the claimed n-1 = 4. -/
theorem rss_lengths_at_five :
    ((rsskeygen 5 pW tapeW).1.2.Y_tilde_i).length = 5
      ∧ ((rsskeygen 5 pW tapeW).1.2.Y_j_1_to_n).length = 5
      ∧ ((rsskeygen 5 pW tapeW).1.2.Y_k_nplus2_to_2n).length = 3
      ∧ ((rsskeygen 5 pW tapeW).1.2.Y_k_nplus2_to_2n).length ≠ 4 := by
  decide

/-- Claim C5: `keygen` returns `Sigkey.y` and `Verkey.Y_tilde` of length n,
with `X_tilde = g_tilde · x` and `Y_tilde[i] = g_tilde · y[i]` at every
index. -/
theorem keygen_shape (n : ℕ) (p : Params) (tape : ℕ → F) :
    ((keygen n p tape).1.1.y).length = n
      ∧ ((keygen n p tape).1.2.Y_tilde).length = n
      ∧ (keygen n p tape).1.2.X_tilde = scalarMul p.g_tilde (keygen n p tape).1.1.x
      ∧ ∀ i : ℕ, ((keygen n p tape).1.2.Y_tilde).get? i
          = Option.map (scalarMul p.g_tilde) (((keygen n p tape).1.1.y).get? i) := by
  have hy : (keygen n p tape).1.1.y = (keygenLoop p tape n 1).1 := rfl
  have hYt : (keygen n p tape).1.2.Y_tilde = (keygenLoop p tape n 1).2.1 := rfl
  refine ⟨?_, ?_, rfl, ?_⟩
  · rw [hy]; exact keygenLoop_y_length p tape n 1
  · rw [hYt, keygenLoop_map]
    simp [keygenLoop_y_length]
  · intro i
    rw [hy, hYt, keygenLoop_map]
    simp

/-- Claim C6 (implicit behaviour of the code): the second loop of
`rsskeygen` continues with the exponent counter left at n+1 by the first
loop, so `Y_j_1_to_n[t] = g · y^(n+1+t)`; in particular the first published
element of that family is `g · y^(n+1)`, the pivot exponent. -/
theorem rss_Y_j_pivot_powers (n : ℕ) (p : Params) (tape : ℕ → F) (t : ℕ)
    (ht : t < n) (hq : n + 1 + t < CurveOrder) :
    ((rsskeygen n p tape).1.2.Y_j_1_to_n).get? t
      = some (scalarMul p.g (fpowNat ((rsskeygen n p tape).1.1.y) (n + 1 + t))) := by
  rw [rsskeygen_Y_j_eq, rsskeygen_sk_y]
  have hv : (fone : F).val = 1 := rfl
  have hsnd : ((rssLoop1 p (tape 1) n fone).2).val = 1 + n := by
    have h := rssLoop1_snd p (tape 1) n fone (by rw [hv]; omega)
    rw [hv] at h
    exact h
  have h := rssLoop2_get p (tape 1) n (rssLoop1 p (tape 1) n fone).2 t ht
    (by rw [hsnd]; omega)
  rw [hsnd] at h
  have harg : 1 + n + t = n + 1 + t := by omega
  rw [harg] at h
  exact h

/-- Witness for claim C6 at n = 2, t = 1 with the test parameters and the
all-twos tape. -/
theorem rss_Y_j_pivot_powers_witness :
    ((rsskeygen 2 pW tapeW).1.2.Y_j_1_to_n).get? 1
      = some (scalarMul pW.g (fpowNat ((rsskeygen 2 pW tapeW).1.1.y) (2 + 1 + 1))) :=
  rss_Y_j_pivot_powers 2 pW tapeW 1 (by decide) (by decide)

/-- Claim C7: `keygen_2018` is strictly `keygen (n+1)`: on the same tape the
calls agree exactly, and `Sigkey.y` has length n+1. -/
theorem keygen_2018_refines (n : ℕ) (p : Params) (tape : ℕ → F) :
    keygen_2018 n p tape = keygen (n + 1) p tape
      ∧ ((keygen_2018 n p tape).1.1.y).length = n + 1 := by
  refine ⟨rfl, ?_⟩
  have hy : (keygen_2018 n p tape).1.1.y = (keygenLoop p tape (n + 1) 1).1 := rfl
  rw [hy]
  exact keygenLoop_y_length p tape (n + 1) 1

/-- Claim C8: `Params::new` is deterministic - two calls on the same label
give identical parameters - and derives `g` by hash-to-group of the label
followed by the literal " : g", and `g_tilde` of the label followed by
" : g_tilde". -/
theorem params_new_deterministic (label : List ℕ) :
    Params.new label = Params.new label
      ∧ (Params.new label).g = fromMsgHash (label ++ gSuffix)
      ∧ (Params.new label).g_tilde = fromMsgHash (label ++ gTildeSuffix) :=
  ⟨rfl, rfl, rfl⟩

/-- Counterexample to claim C9: at n = 3 `rsskeygen` consumes three random
draws, not only the two initial samples of x and y - the third loop draws
(and discards) one fresh scalar per iteration. -/
theorem rss_draws_beyond_two :
    (rsskeygen 3 pW tapeW).2 = 3 ∧ (rsskeygen 3 pW tapeW).2 ≠ 2 := by
  decide

/-- Claim C9 as amended: the public (and secret) outputs of `rsskeygen`
depend only on the first two tape entries x and y - the extra draws of the
third loop are discarded - and the number of draws consumed is exactly
2 + (2n - (n+2)), which exceeds two as soon as n ≥ 3. -/
theorem rss_public_deterministic (n : ℕ) (p : Params) (t1 t2 : ℕ → F)
    (h0 : t1 0 = t2 0) (h1 : t1 1 = t2 1) :
    (rsskeygen n p t1).1 = (rsskeygen n p t2).1
      ∧ (rsskeygen n p t1).2 = 2 + (2 * n - (n + 2)) := by
  constructor
  · rw [rsskeygen_fst_eq, rsskeygen_fst_eq, h0, h1,
      rssLoop3_fst_eq p (t2 1) t1 t2 (2 * n - (n + 2)) fone 2 2]
  · rw [rsskeygen_idx_eq]
    exact rssLoop3_idx p (t1 1) t1 (2 * n - (n + 2)) fone 2

/-- Witness for the amended claim C9 at n = 3, with two tapes agreeing on
the first two draws only. -/
theorem rss_public_deterministic_witness :
    (rsskeygen 3 pW tapeW).1 = (rsskeygen 3 pW tapeW2).1
      ∧ (rsskeygen 3 pW tapeW).2 = 2 + (2 * 3 - (3 + 2)) :=
  rss_public_deterministic 3 pW tapeW tapeW2 rfl rfl

/-- Claim C10: with n = 0 both `keygen` and `rsskeygen` return successfully
with every sequence field empty; the high family's range is empty by
construction. -/
theorem n_zero_empty (p : Params) (tape : ℕ → F) :
    (keygen 0 p tape).1.1.y = []
      ∧ (keygen 0 p tape).1.2.Y_tilde = []
      ∧ (rsskeygen 0 p tape).1.2.Y_tilde_i = []
      ∧ (rsskeygen 0 p tape).1.2.Y_j_1_to_n = []
      ∧ (rsskeygen 0 p tape).1.2.Y_k_nplus2_to_2n = [] :=
  ⟨rfl, rfl, rfl, rfl, rfl⟩

end RSS
